import Mathlib

/-!
Verification development for the `store` package of the doozer repository
(src/pkg/store/store.go): path/mutation codec, the dispatcher loop
(`process`), the watch registry (`notify`, registration backfill), the
event log with `Clean` trimming, and the flush bootstrap mode.

Only `store.go` is available; the tree (`node.go`), the glob engine
(`glob.go`) and the `Event` record (`event.go`) are modelled from the
spec where noted.
-/

namespace Doozer

/-- Error values of the store package: `BadPathError{path}`,
`ErrBadMutation`, `ErrRevMismatch`, `ErrTooLate`, the error returned by
`strconv.Atoi64` on an unparseable number (`numErr`), and the
cannot-descend-into-a-file apply error (`notADir`). -/
inductive StoreError where
  | badPath (path : String)
  | badMutation
  | revMismatch
  | tooLate
  | numErr (s : String)
  | notADir
  deriving DecidableEq, Repr

/-- One character of the path alphabet `[a-zA-Z0-9.\-]` (store.go `charPat`). -/
def okChar (c : Char) : Bool :=
  c.isAlpha || c.isDigit || c = '.' || c = '-'

/-- Loop of the path matcher for the regular expression `^(/P+)+$` after the
leading `/` has been consumed.  The flag records whether we are right after a
`/` and still need at least one segment character. -/
def pathLoop : Bool → List Char → Bool
  | needSeg, [] => !needSeg
  | needSeg, c :: rest =>
    if c = '/' then !needSeg && pathLoop true rest
    else okChar c && pathLoop false rest

/-- `pathRe.MatchString` on the character list: `^/$|^(/P+)+$` with
`P = [a-zA-Z0-9.\-]` (store.go `mustBuildRe`) — a leading `/` followed by
either nothing (the root path) or the `(P+ /)* P+` loop. -/
def pathOkL : List Char → Bool
  | [] => false
  | c :: rest => decide (c = '/') && (rest.isEmpty || pathLoop true rest)

/-- Path validation `pathRe.MatchString(k)` on strings. -/
def pathOk (s : String) : Bool := pathOkL s.data

/-- `checkPath` from store.go: `nil` for a valid path, `BadPathError{k}`
otherwise. -/
def checkPath (k : String) : Option StoreError :=
  if pathOk k then none else some (.badPath k)

/-- Decimal digit character, `'0' + d`. -/
def digitChar (d : Nat) : Char := Char.ofNat (48 + d)

/-- Decimal digits of a natural number, most significant first
(the output of Go `strconv.Uitoa64`), as a well-founded recursion used in
proofs. -/
def natDigits (n : Nat) : List Char :=
  if _h : n < 10 then [digitChar n]
  else natDigits (n / 10) ++ [digitChar (n % 10)]
  decreasing_by exact Nat.div_lt_self (by omega) (by omega)

/-- Fuel-driven digit loop equal to `natDigits` for sufficient fuel; the
accumulator collects the low digits already produced. -/
def natToCharsAux : Nat → Nat → List Char → List Char
  | 0, _, acc => acc
  | fuel + 1, n, acc =>
    if n < 10 then digitChar n :: acc
    else natToCharsAux fuel (n / 10) (digitChar (n % 10) :: acc)

/-- Decimal digits of a natural number, most significant first
(the output of Go `strconv.Uitoa64`). -/
def natToChars (n : Nat) : List Char := natToCharsAux (n + 1) n []

/-- Value of one decimal digit character, if it is one (Go checks
`'0' <= c && c <= '9'`). -/
def digitVal (c : Char) : Option Nat :=
  if 48 ≤ c.toNat ∧ c.toNat ≤ 57 then some (c.toNat - 48) else none

/-- Digit-accumulation loop of `strconv.Btoui64` (base 10). -/
def parseDigitsAux (acc : Nat) : List Char → Option Nat
  | [] => some acc
  | c :: rest =>
    match digitVal c with
    | none => none
    | some d => parseDigitsAux (acc * 10 + d) rest

/-- `strconv.Btoui64(s, 10)` restricted to its accept/value behavior:
a nonempty all-digit string parses to its value. -/
def parseNat : List Char → Option Nat
  | [] => none
  | l => parseDigitsAux 0 l

/-- `strconv.Itoa64`: decimal representation of a signed 64-bit integer. -/
def itoa64 (i : Int) : List Char :=
  if i < 0 then '-' :: natToChars (-i).toNat else natToChars i.toNat

/-- `strconv.Itoa64` producing a `String`. -/
def itoa64S (i : Int) : String := String.mk (itoa64 i)

/-- `strconv.Atoi64` (= `Btoi64(s, 10)`): optional sign, decimal digits,
64-bit range check.  Out-of-range and malformed inputs are both errors;
the distinction (`EINVAL` vs `ERANGE`) is not observable in store.go,
which only tests the error against `nil`. -/
def atoi64 (l : List Char) : Except Unit Int :=
  match l with
  | [] => .error ()
  | c :: rest =>
    if c = '-' then
      match parseNat rest with
      | none => .error ()
      | some n => if (n : Int) ≤ 2 ^ 63 then .ok (-(n : Int)) else .error ()
    else if c = '+' then
      match parseNat rest with
      | none => .error ()
      | some n => if (n : Int) ≤ 2 ^ 63 - 1 then .ok (n : Int) else .error ()
    else
      match parseNat (c :: rest) with
      | none => .error ()
      | some n => if (n : Int) ≤ 2 ^ 63 - 1 then .ok (n : Int) else .error ()

/-- Split at the first occurrence of `sep`: `strings.Split(s, sep, 2)`
returns two pieces exactly when `sep` occurs; `none` models the
one-piece result. -/
def splitFirst (sep : Char) : List Char → Option (List Char × List Char)
  | [] => none
  | c :: rest =>
    if c = sep then some ([], rest)
    else match splitFirst sep rest with
      | none => none
      | some (a, b) => some (c :: a, b)

/-- Special revision values from store.go: `Missing = int64(-iota)` etc. -/
def Missing : Int := 0

/-- `Clobber = -1`. -/
def Clobber : Int := -1

/-- `Dir = -2`. -/
def DirRev : Int := -2

/-- `nop = -3`. -/
def nopRev : Int := -3

/-- `EncodeSet(path, body, rev)` from store.go: `(mutation, err)` with the
mutation `"<rev>:<path>=<body>"` when the path is valid, and the
`BadPathError` otherwise (here `err` is assigned with `=`, so the named
return value really carries it). -/
def EncodeSet (path body : String) (rev : Int) : String × Option StoreError :=
  match checkPath path with
  | some e => ("", some e)
  | none => (itoa64S rev ++ ":" ++ path ++ "=" ++ body, none)

/-- `EncodeDel(path, rev)` from store.go: the inner `if err := checkPath(path)`
declares a NEW `err` that shadows the named return value, so on an invalid
path the function returns `("", nil)` — the non-nil check result is dropped.
On a valid path it returns `"<rev>:<path>"` and `nil`. -/
def EncodeDel (path : String) (rev : Int) : String × Option StoreError :=
  match checkPath path with
  | some _ => ("", none)
  | none => (itoa64S rev ++ ":" ++ path, none)

/-- `decode(mutation)` from store.go: split on the first `":"`
(`BadMutation` when there is none), parse the rev with `strconv.Atoi64`
(returning that parser's error on failure), split the remainder on the
first `"="`, validate the path (`BadPathError` on failure), and return
`(path, value, rev, keep)` where `keep` records whether a `"="` was
present. -/
def decode (mutation : String) : Except StoreError (String × String × Int × Bool) :=
  match splitFirst ':' mutation.data with
  | none => .error .badMutation
  | some (cm0, cm1) =>
    match atoi64 cm0 with
    | .error _ => .error (.numErr (String.mk cm0))
    | .ok rev =>
      match splitFirst '=' cm1 with
      | none =>
        if pathOkL cm1 then .ok (String.mk cm1, "", rev, false)
        else .error (.badPath (String.mk cm1))
      | some (k, v) =>
        if pathOkL k then .ok (String.mk k, String.mk v, rev, true)
        else .error (.badPath (String.mk k))

/-- Modelled from the spec: the tree node of the missing `node.go` —
"Either a File with body `string` and revision `int64`, or a Directory
with an unordered mapping from segment name to child node." -/
inductive Node where
  | file (body : String) (rev : Int)
  | dir (children : List (String × Node))
  
/-- Child lookup in a directory's association list. -/
def getChild (s : String) : List (String × Node) → Option Node
  | [] => none
  | (k, n) :: rest => if k = s then some n else getChild s rest

/-- Replace (or add) a child in a directory's association list. -/
def setChild (s : String) (n : Node) : List (String × Node) → List (String × Node)
  | [] => [(s, n)]
  | (k, m) :: rest => if k = s then (s, n) :: rest else (k, m) :: setChild s n rest

/-- Remove a child from a directory's association list. -/
def delChild (s : String) : List (String × Node) → List (String × Node)
  | [] => []
  | (k, m) :: rest => if k = s then rest else (k, m) :: delChild s rest

/-- An empty directory node (`emptyDir` of the missing `node.go`). -/
def emptyDir : Node := .dir []

/-- Whether a node is an empty directory. -/
def isEmptyDir : Node → Bool
  | .dir [] => true
  | _ => false

/-- Unbounded split on a separator character (`strings.Split(s, sep, -1)`),
on character lists. -/
def splitOnChar (sep : Char) : List Char → List (List Char)
  | [] => [[]]
  | c :: rest =>
    let r := splitOnChar sep rest
    if c = sep then [] :: r
    else
      match r with
      | [] => [[c]]
      | a :: as => (c :: a) :: as

/-- `split(path)` from store.go: `[]` for `"/"`, otherwise
`strings.Split(path[1:], "/", -1)`. -/
def split (path : String) : List String :=
  if path = "/" then []
  else (splitOnChar '/' (path.data.drop 1)).map String.mk

/-- Node lookup along a segment list; `none` when absent or blocked. -/
def Node.lookup? : Node → List String → Option Node
  | n, [] => some n
  | .file _ _, _ :: _ => none
  | .dir cs, s :: rest =>
    match getChild s cs with
    | none => none
    | some c => c.lookup? rest

/-- Whether a strict ancestor of the target path is currently a file
(the spec's "Set where the parent path currently holds a file"). -/
def fileBlocked : Node → List String → Bool
  | _, [] => false
  | .file _ _, _ :: _ => true
  | .dir cs, s :: rest =>
    match getChild s cs with
    | none => false
    | some c => fileBlocked c rest

/-- Modelled from the spec: "Set success: installs a new file node with
`rev = seqn` and given body; creates intermediate directories as needed." -/
def Node.set : Node → List String → String → Int → Node
  | _, [], body, rev => .file body rev
  | .dir cs, s :: rest, body, rev =>
    let child := (getChild s cs).getD emptyDir
    .dir (setChild s (child.set rest body rev) cs)
  | .file _ _, s :: rest, body, rev =>
    .dir (setChild s (emptyDir.set rest body rev) [])

/-- Modelled from the spec: "Del success: removes the file; removes any
ancestor directories that become empty as a result." -/
def Node.del : Node → List String → Node
  | n, [] => n
  | .file b r, _ :: _ => .file b r
  | .dir cs, [s] => .dir (delChild s cs)
  | .dir cs, s :: rest =>
    match getChild s cs with
    | none => .dir cs
    | some c =>
      let c2 := c.del rest
      if isEmptyDir c2 then .dir (delChild s cs) else .dir (setChild s c2 cs)

/-- Modelled from the spec: the `Event` record of the missing `event.go` —
"{seqn, path, body, rev, mutation, err, getter}". -/
structure Event where
  Seqn : Int
  Path : String
  Body : String
  Rev : Int
  Mut : String
  Err : Option StoreError
  Getter : Node

/-- The zero `Event{}` value used by Go for a missing map entry and for the
uninitialized `var ev Event` of each `process` iteration. -/
def Event.zero : Event :=
  { Seqn := 0, Path := "", Body := "", Rev := 0, Mut := "", Err := none, Getter := emptyDir }

/-- Modelled from the spec: `apply(seqn, mut) → (newTree, Event)` of the
missing `node.go`, following section 4.2 of the spec: decode failure and
conditional failure return the unchanged root with an error event; a set or
delete where the existing node is a directory returns an event with
`rev = Dir`; a set whose strict ancestor is a file returns an error event;
the conditional succeeds iff `mutRev == Clobber` or `mutRev == curRev`
(the target file's revision, `Missing` when absent); a successful set
installs a file with `rev = seqn`; a successful delete removes the file and
empty ancestors.  Every event carries the given `seqn` and a getter for the
resulting tree. -/
def Node.apply (root : Node) (seqn : Int) (mutation : String) : Node × Event :=
  match decode mutation with
  | .error e =>
    (root, { Seqn := seqn, Path := "", Body := "", Rev := Missing, Mut := mutation,
             Err := some e, Getter := root })
  | .ok (path, body, rev, keep) =>
    let segs := split path
    if fileBlocked root segs then
      (root, { Seqn := seqn, Path := path, Body := "", Rev := Missing, Mut := mutation,
               Err := some .notADir, Getter := root })
    else
      match root.lookup? segs with
      | some (.dir _) =>
        (root, { Seqn := seqn, Path := path, Body := "", Rev := DirRev, Mut := mutation,
                 Err := none, Getter := root })
      | cur =>
        let curRev := match cur with
          | some (.file _ r) => r
          | _ => Missing
        if rev = Clobber ∨ rev = curRev then
          if keep then
            let root2 := root.set segs body seqn
            (root2, { Seqn := seqn, Path := path, Body := body, Rev := seqn, Mut := mutation,
                      Err := none, Getter := root2 })
          else
            let root2 := root.del segs
            (root2, { Seqn := seqn, Path := path, Body := "", Rev := Missing, Mut := mutation,
                      Err := none, Getter := root2 })
        else
          (root, { Seqn := seqn, Path := path, Body := "", Rev := Missing, Mut := mutation,
                   Err := some .revMismatch, Getter := root })

/-- Modelled from the spec: the glob engine (`glob.go`) is deliberately out
of scope — "the core consumes an opaque `Matches(path) → bool` capability".
A glob is that capability. -/
def Glob := String → Bool

/-- `(*Glob).Match(path)`. -/
def Glob.Match (g : Glob) (path : String) : Bool := g path

/-- `Any = MustCompileGlob("/**")`: matches every path. -/
def Any : Glob := fun _ => true

/-- A watch from store.go, with the stop/shutdown channel pair collapsed
into the `stopped` flag that `isStopped` reports (`from` and `to` are
keywords in Lean, hence `from_`/`to_`). -/
structure Watch where
  glob : Glob
  from_ : Int
  to_ : Int
  stopped : Bool

/-- A queued `(watch, event)` delivery from store.go. -/
structure notice where
  w : Watch
  ev : Event

/-- An operation `Op{Seqn, Mut}` from store.go. -/
structure Op where
  Seqn : Int
  Mut : String
  deriving DecidableEq

/-- `Store.notify(e, ws)`: walks the watch list; drops stopped watches and
watches with `e.Seqn >= w.to`; keeps a watch in the returned live list iff
additionally `e.Seqn != w.to - 1`; skips delivery when `e.Seqn < w.from`;
otherwise appends `notice{w, e}` to `st.notices` when the glob matches.
The accumulated notices are returned alongside the surviving watches. -/
def notify (ns : List notice) (e : Event) : List Watch → List Watch × List notice
  | [] => ([], ns)
  | w :: rest =>
    if w.stopped then notify ns e rest
    else if w.to_ ≤ e.Seqn then notify ns e rest
    else
      let ns2 := if e.Seqn < w.from_ then ns
        else if w.glob.Match e.Path then ns ++ [⟨w, e⟩] else ns
      let r := notify ns2 e rest
      (if e.Seqn = w.to_ - 1 then r.1 else w :: r.1, r.2)

/-- The dispatcher-owned state of a `Store`: the `state{ver, root}` pair,
the retention watermark `head`, the event log, the pending min-heap
`todo`, the live watch list and the notice queue.  The `applied` field is
bookkeeping only: it records every event produced by an apply, in order,
so that properties about "applied operations" can be stated; no other
field reads it. -/
structure SState where
  ver : Int
  root : Node
  head : Int
  log : List (Int × Event)
  todo : List Op
  watches : List Watch
  notices : List notice
  applied : List Event

/-- The empty store of `New()`: version 0, empty root, empty log, `head = 0`. -/
def initS : SState :=
  { ver := 0, root := emptyDir, head := 0, log := [], todo := [],
    watches := [], notices := [], applied := [] }

/-- Remove a log entry (`st.log[k] = Event{}, false`). -/
def logErase (k : Int) (l : List (Int × Event)) : List (Int × Event) :=
  l.filter fun p => decide (p.1 ≠ k)

/-- Write a log entry (`st.log[k] = e`). -/
def logUpdate (k : Int) (e : Event) (l : List (Int × Event)) : List (Int × Event) :=
  (k, e) :: logErase k l

/-- Read a log entry (`st.log[k]`), `none` when absent. -/
def logLookup (k : Int) (l : List (Int × Event)) : Option Event :=
  (l.find? fun p => decide (p.1 = k)).map (·.2)

/-- `heap.Push(st.todo, a)` on the min-heap ordered by `Op.Less`
(comparison on `Seqn`), modelled by its observable behavior: the pending
list is kept sorted so that position 0 is the minimum. -/
def heapPush (o : Op) : List Op → List Op
  | [] => [o]
  | t :: rest => if o.Seqn < t.Seqn then o :: t :: rest else t :: heapPush o rest

/-- The mutation-application loop of `process` (store.go lines 332-355):
peek the top `t`; under flush jump `ver` to `t.Seqn - 1` when it is ahead;
break when `t.Seqn > ver+1`; pop; discard when `t.Seqn < ver+1`; otherwise
apply, publish `state{ev.Seqn, values}`, and — unless flushing — record the
event in the log and notify the watches.  Returns the state (with the
leftover heap) and the final value of the iteration-local `ev`. -/
def drainLoop (flush : Bool) : List Op → SState → Event → SState × Event
  | [], s, ev => ({ s with todo := [] }, ev)
  | t :: rest, s, ev =>
    let v1 := if flush && decide (s.ver < t.Seqn) then t.Seqn - 1 else s.ver
    if t.Seqn > v1 + 1 then ({ s with todo := t :: rest }, ev)
    else if t.Seqn < v1 + 1 then drainLoop flush rest { s with ver := v1 } ev
    else
      let pr := Node.apply s.root t.Seqn t.Mut
      let e := pr.2
      let s2 := { s with root := pr.1, ver := e.Seqn, applied := s.applied ++ [e] }
      let s3 :=
        if flush then s2
        else
          let wn := notify s2.notices e s2.watches
          { s2 with log := logUpdate e.Seqn e s2.log, watches := wn.1, notices := wn.2 }
      drainLoop flush rest s3 e

/-- The backfill loop of watch registration (store.go lines 308-317,
second loop): replay `st.log[n]` (zero event when absent) for
`n = from .. ver` while the singleton watch list survives. -/
def replayLoop (log : List (Int × Event)) : Nat → Int → List Watch → List notice →
    List Watch × List notice
  | 0, _, ws, ns => (ws, ns)
  | f + 1, n, ws, ns =>
    if ws.isEmpty then (ws, ns)
    else
      let e := (logLookup n log).getD Event.zero
      let wn := notify ns e ws
      replayLoop log f (n + 1) wn.1 wn.2

/-- Watch registration at the dispatcher (store.go lines 308-317): the
first loop empties the candidate list whenever `from < head`; the second
replays the log over `[from, ver]`; the survivors join `st.watches`. -/
def registerWatch (s : SState) (w : Watch) : SState :=
  if w.from_ < s.head then s
  else
    let wn := replayLoop s.log (s.ver + 1 - w.from_).toNat w.from_ [w] s.notices
    { s with watches := s.watches ++ wn.1, notices := wn.2 }

/-- The `Clean` loop of `process` (store.go lines 318-321):
`for ; st.head <= seqn; st.head++` deleting `st.log[st.head]`, run here on
fuel `(seqn + 1 - head).toNat`, which makes the final head
`max(head, seqn+1)` exactly as the loop does. -/
def cleanLoop : Nat → Int → List (Int × Event) → Int × List (Int × Event)
  | 0, h, log => (h, log)
  | f + 1, h, log => cleanLoop f (h + 1) (logErase h log)

/-- One `Clean(seqn)` request processed by the dispatcher. -/
def cleanStep (s : SState) (k : Int) : SState :=
  let hl := cleanLoop (k + 1 - s.head).toNat s.head s.log
  { s with head := hl.1, log := hl.2 }

/-- The head-of-queue notice delivery (`case nc <- ne`), enabled only when
the notice queue is nonempty. -/
def deliverStep (s : SState) : SState :=
  match s.notices with
  | [] => s
  | _ :: rest => { s with notices := rest }

/-- The pruning of stopped watches at the head of the notice queue
performed at the top of every `process` iteration (store.go lines 287-289). -/
def pruneNotices (ns : List notice) : List notice :=
  ns.dropWhile fun n => n.w.stopped

/-- The flush epilogue (store.go lines 357-362): "A flush just gets one
final event" — record `ev` in the log, notify the watches with it, and
advance `head` to `ver + 1`. -/
def finalFlush (s : SState) (ev : Event) : SState :=
  let wn := notify s.notices ev s.watches
  { s with log := logUpdate ev.Seqn ev s.log, watches := wn.1, notices := wn.2,
           head := s.ver + 1 }

/-- The seven select arms of the dispatcher: an incoming op, a watch
registration, a `Clean` request, the two query arms (`Seqns`, `Watches`),
a notice delivery, and the flush signal. -/
inductive Req where
  | op (o : Op)
  | watch (w : Watch)
  | clean (seqn : Int)
  | seqnQ
  | watchQ
  | deliver
  | flushSig

/-- Whether a request is the flush signal. -/
def isFlushReq : Req → Bool
  | .flushSig => true
  | _ => false

/-- The drain of the pending queue run after every select, followed by the
flush epilogue on a flushing iteration. -/
def afterSelect (flush : Bool) (s : SState) : SState :=
  let dr := drainLoop flush s.todo { s with todo := [] } Event.zero
  if flush then finalFlush dr.1 dr.2 else dr.1

/-- One iteration of the `process` loop: prune stopped notice heads,
serve one select arm (an op is pushed only when `Seqn > ver`), then drain
the pending queue (and run the flush epilogue on a flush iteration). -/
def step (s0 : SState) (r : Req) : SState :=
  let s := { s0 with notices := pruneNotices s0.notices }
  let s1 := match r with
    | .op o => if o.Seqn > s.ver then { s with todo := heapPush o s.todo } else s
    | .watch w => registerWatch s w
    | .clean k => cleanStep s k
    | .deliver => deliverStep s
    | _ => s
  afterSelect (isFlushReq r) s1

/-- The store reached from `New()` by serving a sequence of requests. -/
def runTrace (rs : List Req) : SState := rs.foldl step initS

/-- `math.MaxInt64`. -/
def maxInt64 : Int := 2 ^ 63 - 1

/-- The caller side of `Store.watchOn(glob, ch, from, to)`: reject
`from < 1` with `ErrTooLate` before talking to the dispatcher; otherwise
register the watch (the returned flag records that the registration was
sent on `watchCh`) and reject with `ErrTooLate` when `head > from`. -/
def watchOn (g : Glob) (from_ to_ : Int) (head : Int) :
    Except StoreError Watch × Bool :=
  if from_ < 1 then (.error .tooLate, false)
  else if head > from_ then (.error .tooLate, true)
  else (.ok { glob := g, from_ := from_, to_ := to_, stopped := false }, true)

/-- `NewWatchFrom(st, glob, from)`: `watchOn(glob, ch, from, math.MaxInt64)`. -/
def NewWatchFrom (g : Glob) (from_ : Int) (head : Int) :
    Except StoreError Watch × Bool :=
  watchOn g from_ maxInt64 head

/-- `Store.Wait(seqn)`: `watchOn(Any, ch, seqn, seqn+1)`. -/
def Wait (seqn : Int) (head : Int) : Except StoreError Watch × Bool :=
  watchOn Any seqn (seqn + 1) head

/-- Requests that are neither a log trim nor a flush. -/
def noTrimReq : Req → Bool
  | .clean _ => false
  | .flushSig => false
  | _ => true

/-- A request that keeps the log window well-formed in a given state:
`Clean(k)` only up to the current version, and no flush. -/
def goodReq (s : SState) : Req → Bool
  | .clean k => decide (k ≤ s.ver)
  | .flushSig => false
  | _ => true

/-- All requests of a trace are good, judged in the states where they
are served. -/
def goodFrom : SState → List Req → Bool
  | _, [] => true
  | s, r :: rs => goodReq s r && goodFrom (step s r) rs

/-- A good trace from the empty store. -/
def GoodTrace (rs : List Req) : Bool := goodFrom initS rs

/-- The pending list is sorted by sequence number (the order in which the
min-heap hands out its elements). -/
def sortedOps : List Op → Bool
  | [] => true
  | [_] => true
  | a :: b :: r => decide (a.Seqn ≤ b.Seqn) && sortedOps (b :: r)

/-- The consecutive integers `start, start+1, ..., start+len-1`. -/
def intRange : Int → Nat → List Int
  | _, 0 => []
  | start, len + 1 => start :: intRange (start + 1) len

/-- Upper log invariant: the version is nonnegative and every retained
log entry sits at a sequence number at most the version. -/
def Inv1 (s : SState) : Prop :=
  0 ≤ s.ver ∧ ∀ p ∈ s.log, p.1 ≤ s.ver

/-- Lower log invariant: the retention watermark is at most `ver + 1` and
every retained log entry sits at a sequence number at least `head`. -/
def Inv2 (s : SState) : Prop :=
  s.head ≤ s.ver + 1 ∧ ∀ p ∈ s.log, s.head ≤ p.1

theorem strMk_data (s : String) : String.mk s.data = s := rfl

theorem splitFirst_not_mem (sep : Char) (l : List Char) (h : sep ∉ l) :
    splitFirst sep l = none := by
  induction l with
  | nil => rfl
  | cons c rest ih =>
    have hc : ¬ c = sep := fun hh => h (hh ▸ List.mem_cons_self c rest)
    simp only [splitFirst]
    rw [if_neg hc, ih (fun hm => h (List.mem_cons_of_mem c hm))]

theorem splitFirst_append (sep : Char) (a b : List Char) (h : sep ∉ a) :
    splitFirst sep (a ++ sep :: b) = some (a, b) := by
  induction a with
  | nil => simp [splitFirst]
  | cons c rest ih =>
    have hc : ¬ c = sep := fun hh => h (hh ▸ List.mem_cons_self c rest)
    simp only [List.cons_append, splitFirst]
    rw [if_neg hc, show rest.append (sep :: b) = rest ++ sep :: b from rfl,
      ih (fun hm => h (List.mem_cons_of_mem c hm))]

theorem natToCharsAux_eq (fuel : Nat) : ∀ (n : Nat) (acc : List Char), n < fuel →
    natToCharsAux fuel n acc = natDigits n ++ acc := by
  induction fuel with
  | zero => intro n acc h; omega
  | succ fuel ih =>
    intro n acc h
    by_cases h10 : n < 10
    · rw [natToCharsAux, if_pos h10, natDigits, dif_pos h10]
      rfl
    · have hd : n / 10 < n := Nat.div_lt_self (by omega) (by omega)
      rw [natToCharsAux, if_neg h10, ih (n / 10) _ (by omega)]
      conv_rhs => rw [natDigits, dif_neg h10]
      rw [List.append_assoc]
      rfl

theorem natToChars_eq (n : Nat) : natToChars n = natDigits n := by
  rw [natToChars, natToCharsAux_eq (n + 1) n [] (by omega), List.append_nil]

theorem digitVal_digitChar (d : Nat) (h : d < 10) : digitVal (digitChar d) = some d := by
  interval_cases d <;> rfl

theorem digitChar_ne_special (d : Nat) (h : d < 10) :
    digitChar d ≠ '-' ∧ digitChar d ≠ '+' ∧ digitChar d ≠ ':' := by
  interval_cases d <;> refine ⟨by decide, by decide, by decide⟩

theorem natDigits_chars (n : Nat) : ∀ c ∈ natDigits n, ∃ d, d < 10 ∧ c = digitChar d := by
  induction n using Nat.strong_induction_on with
  | _ n ih =>
    intro c hc
    rw [natDigits] at hc
    by_cases h10 : n < 10
    · rw [dif_pos h10] at hc
      simp at hc
      exact ⟨n, h10, hc⟩
    · rw [dif_neg h10] at hc
      rcases List.mem_append.mp hc with h | h
      · exact ih (n / 10) (Nat.div_lt_self (by omega) (by omega)) c h
      · simp at h
        exact ⟨n % 10, by omega, h⟩

theorem natDigits_head (n : Nat) : ∃ d cs, natDigits n = digitChar d :: cs ∧ d < 10 := by
  induction n using Nat.strong_induction_on with
  | _ n ih =>
    rw [natDigits]
    by_cases h10 : n < 10
    · rw [dif_pos h10]
      exact ⟨n, [], rfl, h10⟩
    · rw [dif_neg h10]
      obtain ⟨d, cs, hrw, hd⟩ := ih (n / 10) (Nat.div_lt_self (by omega) (by omega))
      exact ⟨d, cs ++ [digitChar (n % 10)], by rw [hrw]; rfl, hd⟩

theorem parseDigitsAux_append (xs : List Char) : ∀ (acc : Nat) (ys : List Char),
    parseDigitsAux acc (xs ++ ys) =
      (parseDigitsAux acc xs).bind fun a => parseDigitsAux a ys := by
  induction xs with
  | nil => intro acc ys; rfl
  | cons c rest ih =>
    intro acc ys
    simp only [List.cons_append, parseDigitsAux]
    cases digitVal c with
    | none => rfl
    | some d => exact ih _ ys

theorem parseDigitsAux_natDigits (n : Nat) : ∀ acc : Nat,
    parseDigitsAux acc (natDigits n) = some (acc * 10 ^ (natDigits n).length + n) := by
  induction n using Nat.strong_induction_on with
  | _ n ih =>
    intro acc
    by_cases h10 : n < 10
    · rw [natDigits, dif_pos h10]
      simp [parseDigitsAux, digitVal_digitChar n h10]
    · rw [natDigits, dif_neg h10, parseDigitsAux_append,
        ih (n / 10) (Nat.div_lt_self (by omega) (by omega)) acc]
      simp only [Option.bind, parseDigitsAux, digitVal_digitChar (n % 10) (by omega)]
      congr 1
      have h1 : n / 10 * 10 + n % 10 = n := by omega
      simp only [List.length_append, List.length_cons, List.length_nil, zero_add,
        pow_succ]
      calc (acc * 10 ^ (natDigits (n / 10)).length + n / 10) * 10 + n % 10
          = acc * (10 ^ (natDigits (n / 10)).length * 10) +
              (n / 10 * 10 + n % 10) := by ring
        _ = acc * (10 ^ (natDigits (n / 10)).length * 10) + n := by rw [h1]

theorem parseNat_natDigits (n : Nat) : parseNat (natDigits n) = some n := by
  obtain ⟨d, cs, hrw, _⟩ := natDigits_head n
  have h := parseDigitsAux_natDigits n 0
  rw [hrw] at h ⊢
  simpa using h

theorem atoi64_itoa64 (i : Int) (hlo : -(2 ^ 63) ≤ i) (hhi : i < 2 ^ 63) :
    atoi64 (itoa64 i) = .ok i := by
  have h63 : (2 : Int) ^ 63 = 9223372036854775808 := by norm_num
  rw [h63] at hlo hhi
  unfold itoa64
  by_cases hi : i < 0
  · rw [if_pos hi]
    have htn : ((-i).toNat : Int) = -i := Int.toNat_of_nonneg (by omega)
    simp only [atoi64]
    rw [if_pos trivial, natToChars_eq, parseNat_natDigits]
    dsimp only
    rw [h63, if_pos (by omega)]
    congr 1
    omega
  · rw [if_neg hi]
    have htn : (i.toNat : Int) = i := Int.toNat_of_nonneg (by omega)
    rw [natToChars_eq]
    obtain ⟨d, cs, hrw, hd⟩ := natDigits_head i.toNat
    rw [hrw]
    simp only [atoi64, if_neg (digitChar_ne_special d hd).1,
      if_neg (digitChar_ne_special d hd).2.1]
    rw [← hrw, parseNat_natDigits]
    simp only
    rw [h63, if_pos (by omega)]
    rw [htn]

theorem itoa64_mem (i : Int) (c : Char) (h : c ∈ itoa64 i) :
    c = '-' ∨ ∃ d, d < 10 ∧ c = digitChar d := by
  unfold itoa64 at h
  by_cases hi : i < 0
  · rw [if_pos hi, natToChars_eq] at h
    rcases List.mem_cons.mp h with h | h
    · exact Or.inl h
    · exact Or.inr (natDigits_chars _ c h)
  · rw [if_neg hi, natToChars_eq] at h
    exact Or.inr (natDigits_chars _ c h)

theorem colon_not_mem_itoa64 (i : Int) : ':' ∉ itoa64 i := by
  intro h
  rcases itoa64_mem i ':' h with h | ⟨d, hd, h⟩
  · exact absurd h (by decide)
  · exact (digitChar_ne_special d hd).2.2 h.symm

theorem pathLoop_chars (l : List Char) : ∀ b, pathLoop b l = true →
    ∀ c ∈ l, c = '/' ∨ okChar c = true := by
  induction l with
  | nil => intro b _ c hc; simp at hc
  | cons a rest ih =>
    intro b h c hc
    simp only [pathLoop] at h
    by_cases ha : a = '/'
    · rw [if_pos ha] at h
      simp only [Bool.and_eq_true] at h
      rcases List.mem_cons.mp hc with rfl | hc
      · exact Or.inl ha
      · exact ih true h.2 c hc
    · rw [if_neg ha] at h
      simp only [Bool.and_eq_true] at h
      rcases List.mem_cons.mp hc with rfl | hc
      · exact Or.inr h.1
      · exact ih false h.2 c hc

theorem pathOkL_chars (l : List Char) (h : pathOkL l = true) :
    ∀ c ∈ l, c = '/' ∨ okChar c = true := by
  cases l with
  | nil => intro c hc; simp at hc
  | cons a rest =>
    intro c hc
    simp only [pathOkL, Bool.and_eq_true, decide_eq_true_eq] at h
    rcases List.mem_cons.mp hc with rfl | hc
    · exact Or.inl h.1
    · cases rest with
      | nil => simp at hc
      | cons b r2 =>
        have h2 : pathLoop true (b :: r2) = true := by
          have h3 := h.2
          simp only [Bool.or_eq_true] at h3
          rcases h3 with h3 | h3
          · simp [List.isEmpty] at h3
          · exact h3
        exact pathLoop_chars (b :: r2) true h2 c hc

theorem eq_not_mem_path (p : String) (hp : pathOk p = true) : '=' ∉ p.data := by
  intro hm
  rcases pathOkL_chars p.data hp '=' hm with h | h
  · exact absurd h (by decide)
  · exact absurd h (by decide)

theorem colon_data : (":" : String).data = [':'] := rfl

theorem eqsign_data : ("=" : String).data = ['='] := rfl

theorem appendColon_data (a b : String) :
    (a ++ ":" ++ b).data = a.data ++ ':' :: b.data := by
  simp [String.data_append, colon_data]

theorem encodeSet_data (path body : String) (rev : Int) :
    (itoa64S rev ++ ":" ++ path ++ "=" ++ body).data
      = itoa64 rev ++ ':' :: (path.data ++ '=' :: body.data) := by
  simp [itoa64S, String.data_append, colon_data, eqsign_data]

theorem decode_encodeSet (path body : String) (rev : Int) (hp : pathOk path = true)
    (hlo : -(2 ^ 63) ≤ rev) (hhi : rev < 2 ^ 63) :
    decode (itoa64S rev ++ ":" ++ path ++ "=" ++ body) = .ok (path, body, rev, true) := by
  have hp2 : pathOkL path.data = true := hp
  simp only [decode, encodeSet_data,
    splitFirst_append ':' (itoa64 rev) (path.data ++ '=' :: body.data)
      (colon_not_mem_itoa64 rev),
    atoi64_itoa64 rev hlo hhi,
    splitFirst_append '=' path.data body.data (eq_not_mem_path path hp),
    hp2, if_true, strMk_data]

theorem decode_encodeDel (path : String) (rev : Int) (hp : pathOk path = true)
    (hlo : -(2 ^ 63) ≤ rev) (hhi : rev < 2 ^ 63) :
    decode (itoa64S rev ++ ":" ++ path) = .ok (path, "", rev, false) := by
  have hp2 : pathOkL path.data = true := hp
  have hd : (itoa64S rev ++ ":" ++ path).data = itoa64 rev ++ ':' :: path.data :=
    appendColon_data (itoa64S rev) path
  simp only [decode, hd,
    splitFirst_append ':' (itoa64 rev) path.data (colon_not_mem_itoa64 rev),
    atoi64_itoa64 rev hlo hhi,
    splitFirst_not_mem '=' path.data (eq_not_mem_path path hp),
    hp2, if_true, strMk_data]

/-- C1 — the claim as stated is what `EncodeDel`'s own doc comment promises,
but the code's `if err := checkPath(path)` shadows the named return value:
on the invalid path `"x"` the function returns `("", nil)` — an empty
mutation and a NIL error, never the `BadPathError`.  The sibling
`EncodeSet`, which assigns with `=` instead of `:=`, does return the
`BadPathError` on the same path. -/
theorem C1_encodeDel_nil_error :
    pathOk "x" = false ∧
    EncodeDel "x" 1 = ("", none) ∧
    (EncodeSet "x" "b" 1).2 = some (StoreError.badPath "x") := by
  refine ⟨rfl, rfl, rfl⟩

/-- C2 — the claim says no notice is ever enqueued for any event produced
by a `Flush`, but `process` runs `st.notify(ev, st.watches)` on the
flush's final event (store.go line 360): after registering a live watch
over `[1, MaxInt64)` with a glob matching everything, leaving the op with
seqn 2 pending, and flushing, the notice queue holds exactly the notice
for that flush-applied event. -/
theorem C2_flush_final_event_notified :
    (runTrace [.watch ⟨Any, 1, maxInt64, false⟩, .op ⟨2, "0:/a=x"⟩, .flushSig]).notices.map
      (fun n => (n.ev.Seqn, n.ev.Path)) = [(2, "/a")] := by
  rfl

/-- C8 — flush collapse: pending ops with seqns 5 and 8 on a fresh store
are both applied, in order, by one flush; the store ends at version 8 and
the log holds exactly one entry, keyed 8 and holding the event with
seqn 8. -/
theorem C8_flush_collapse :
    (runTrace [.op ⟨5, "0:/a=x"⟩, .op ⟨8, "0:/b=y"⟩, .flushSig]).ver = 8 ∧
    (runTrace [.op ⟨5, "0:/a=x"⟩, .op ⟨8, "0:/b=y"⟩, .flushSig]).log.map Prod.fst = [8] ∧
    (runTrace [.op ⟨5, "0:/a=x"⟩, .op ⟨8, "0:/b=y"⟩, .flushSig]).log.map
      (fun p => p.2.Seqn) = [8] ∧
    (runTrace [.op ⟨5, "0:/a=x"⟩, .op ⟨8, "0:/b=y"⟩, .flushSig]).applied.map
      (fun e => e.Seqn) = [5, 8] := by
  refine ⟨rfl, rfl, rfl, rfl⟩

/-- C10 — `watchOn` rejects every `from < 1` with `ErrTooLate` before any
interaction with the dispatcher (the returned flag `false` records that
nothing was sent on `watchCh`), for every dispatcher head — including the
fresh store's `head = 0`; consequently `Wait(0)` and `Wait` of any
negative seqn return `ErrTooLate` the same way. -/
theorem C10_watch_from_lt_one (g : Glob) (from_ to_ head : Int)
    (h : from_ < 1) :
    watchOn g from_ to_ head = (.error .tooLate, false) ∧
    (∀ seqn head2 : Int, seqn ≤ 0 → Wait seqn head2 = (.error .tooLate, false)) := by
  constructor
  · unfold watchOn
    rw [if_pos h]
  · intro seqn head2 hs
    unfold Wait watchOn
    rw [if_pos (by omega)]

/-- C6 — per-event matching: `notify` keeps a watch in the live set iff it
is not stopped, `e.Seqn < w.to` and `e.Seqn ≠ w.to - 1` (so a stopped
watch or one with `e.Seqn ≥ w.to` is dropped, and one whose window is
exhausted by this event is removed after it), and appends the notice
`(w, e)` to the queue iff the watch is not stopped, `e.Seqn < w.to`,
`e.Seqn ≥ w.from` and the glob matches `e.Path` — in list order. -/
theorem C6_notify_spec (ns : List notice) (e : Event) (ws : List Watch) :
    notify ns e ws =
      (ws.filter fun w =>
         !w.stopped && decide (e.Seqn < w.to_) && !decide (e.Seqn = w.to_ - 1),
       ns ++ (ws.filter fun w =>
         !w.stopped && decide (e.Seqn < w.to_) && decide (w.from_ ≤ e.Seqn) &&
           w.glob.Match e.Path).map fun w => ⟨w, e⟩) := by
  induction ws generalizing ns with
  | nil => simp [notify]
  | cons w rest ih =>
    by_cases hs : w.stopped
    · simp [notify, List.filter_cons, hs, ih ns]
    · by_cases hto : w.to_ ≤ e.Seqn
      · have h1 : ¬ e.Seqn < w.to_ := by omega
        simp [notify, List.filter_cons, hs, hto, h1, ih ns]
      · have h1 : e.Seqn < w.to_ := by omega
        have hb1 : decide (e.Seqn < w.to_) = true := decide_eq_true h1
        have hcore : ∀ hb2v : Bool, decide (e.Seqn = w.to_ - 1) = hb2v →
            notify ns e (w :: rest) =
              ((w :: rest).filter fun u =>
                 !u.stopped && decide (e.Seqn < u.to_) && !decide (e.Seqn = u.to_ - 1),
               ns ++ ((w :: rest).filter fun u =>
                 !u.stopped && decide (e.Seqn < u.to_) && decide (u.from_ ≤ e.Seqn) &&
                   u.glob.Match e.Path).map fun u => ⟨u, e⟩) := by
          intro hb2v hb2
          by_cases hfrom : e.Seqn < w.from_
          · have h2 : ¬ w.from_ ≤ e.Seqn := by omega
            have hb3 : decide (w.from_ ≤ e.Seqn) = false := decide_eq_false h2
            cases hb2v <;>
              simp [notify, List.filter_cons, hs, hto, hfrom, hb1, hb2, hb3, ih ns] <;>
              first
              | exact of_decide_eq_true hb2
              | exact of_decide_eq_false hb2
          · have h2 : w.from_ ≤ e.Seqn := by omega
            have hb3 : decide (w.from_ ≤ e.Seqn) = true := decide_eq_true h2
            cases hb2v <;> by_cases hg : w.glob.Match e.Path <;>
              simp [notify, List.filter_cons, hs, hto, hfrom, hb1, hb2, hb3, hg, ih,
                List.append_assoc] <;>
              first
              | exact of_decide_eq_true hb2
              | exact of_decide_eq_false hb2
        exact hcore _ rfl

/-- Witness for C10 at `from = 0`, `Wait (-5)` on a fresh store. -/
theorem C10_watch_from_lt_one_witness :
    (0 : Int) < 1 ∧
    watchOn Any 0 9 0 = (.error .tooLate, false) ∧
    Wait (-5) 0 = (.error .tooLate, false) :=
  ⟨by norm_num, (C10_watch_from_lt_one Any 0 9 0 (by norm_num)).1,
   (C10_watch_from_lt_one Any 0 9 0 (by norm_num)).2 (-5) 0 (by norm_num)⟩

theorem apply_Seqn (root : Node) (seqn : Int) (m : String) :
    (Node.apply root seqn m).2.Seqn = seqn := by
  cases hd : decode m with
  | error e => simp [Node.apply, hd]
  | ok v =>
    obtain ⟨p, b, rv, k⟩ := v
    simp only [Node.apply, hd]
    split
    · rfl
    · split
      · rfl
      · split
        · split <;> rfl
        · rfl

theorem drainLoop_false_cons (t : Op) (rest : List Op) (s : SState) (ev : Event) :
    drainLoop false (t :: rest) s ev =
      if s.ver + 1 < t.Seqn then ({ s with todo := t :: rest }, ev)
      else if t.Seqn < s.ver + 1 then drainLoop false rest s ev
      else
        drainLoop false rest
          { s with root := (Node.apply s.root t.Seqn t.Mut).1,
                   ver := (Node.apply s.root t.Seqn t.Mut).2.Seqn,
                   log := logUpdate (Node.apply s.root t.Seqn t.Mut).2.Seqn
                            (Node.apply s.root t.Seqn t.Mut).2 s.log,
                   watches := (notify s.notices (Node.apply s.root t.Seqn t.Mut).2
                                s.watches).1,
                   notices := (notify s.notices (Node.apply s.root t.Seqn t.Mut).2
                                s.watches).2,
                   applied := s.applied ++ [(Node.apply s.root t.Seqn t.Mut).2] }
          (Node.apply s.root t.Seqn t.Mut).2 := rfl

theorem drainLoop_true_cons (t : Op) (rest : List Op) (s : SState) (ev : Event) :
    drainLoop true (t :: rest) s ev =
      if (if decide (s.ver < t.Seqn) then t.Seqn - 1 else s.ver) + 1 < t.Seqn then
        ({ s with todo := t :: rest }, ev)
      else if t.Seqn < (if decide (s.ver < t.Seqn) then t.Seqn - 1 else s.ver) + 1 then
        drainLoop true rest
          { s with ver := if decide (s.ver < t.Seqn) then t.Seqn - 1 else s.ver } ev
      else
        drainLoop true rest
          { s with root := (Node.apply s.root t.Seqn t.Mut).1,
                   ver := (Node.apply s.root t.Seqn t.Mut).2.Seqn,
                   applied := s.applied ++ [(Node.apply s.root t.Seqn t.Mut).2] }
          (Node.apply s.root t.Seqn t.Mut).2 := rfl

theorem drain_head (flush : Bool) (todo : List Op) : ∀ (s : SState) (ev : Event),
    (drainLoop flush todo s ev).1.head = s.head := by
  induction todo with
  | nil => intro s ev; rfl
  | cons t rest ih =>
    intro s ev
    cases flush
    · rw [drainLoop_false_cons]
      by_cases hb : s.ver + 1 < t.Seqn
      · rw [if_pos hb]
      · rw [if_neg hb]
        by_cases hd : t.Seqn < s.ver + 1
        · rw [if_pos hd, ih]
        · rw [if_neg hd, ih]
    · rw [drainLoop_true_cons]
      by_cases hv : s.ver < t.Seqn
      · have hv1 : (if decide (s.ver < t.Seqn) then t.Seqn - 1 else s.ver) = t.Seqn - 1 := by
          rw [decide_eq_true hv]
          exact if_pos rfl
        rw [hv1, if_neg (by omega), if_neg (by omega), ih]
      · have hv1 : (if decide (s.ver < t.Seqn) then t.Seqn - 1 else s.ver) = s.ver := by
          rw [decide_eq_false hv]
          exact if_neg Bool.false_ne_true
        rw [hv1, if_neg (by omega), if_pos (by omega), ih]

theorem drain_ver_mono (flush : Bool) (todo : List Op) : ∀ (s : SState) (ev : Event),
    s.ver ≤ (drainLoop flush todo s ev).1.ver := by
  induction todo with
  | nil => intro s ev; exact le_refl _
  | cons t rest ih =>
    intro s ev
    cases flush
    · rw [drainLoop_false_cons]
      by_cases hb : s.ver + 1 < t.Seqn
      · rw [if_pos hb]
      · rw [if_neg hb]
        by_cases hd : t.Seqn < s.ver + 1
        · rw [if_pos hd]
          exact ih s ev
        · rw [if_neg hd]
          refine le_trans ?_ (ih _ _)
          have he := apply_Seqn s.root t.Seqn t.Mut
          show s.ver ≤ (Node.apply s.root t.Seqn t.Mut).2.Seqn
          omega
    · rw [drainLoop_true_cons]
      by_cases hv : s.ver < t.Seqn
      · have hv1 : (if decide (s.ver < t.Seqn) then t.Seqn - 1 else s.ver) = t.Seqn - 1 := by
          rw [decide_eq_true hv]
          exact if_pos rfl
        rw [hv1, if_neg (by omega), if_neg (by omega)]
        refine le_trans ?_ (ih _ _)
        have he := apply_Seqn s.root t.Seqn t.Mut
        show s.ver ≤ (Node.apply s.root t.Seqn t.Mut).2.Seqn
        omega
      · have hv1 : (if decide (s.ver < t.Seqn) then t.Seqn - 1 else s.ver) = s.ver := by
          rw [decide_eq_false hv]
          exact if_neg Bool.false_ne_true
        rw [hv1, if_neg (by omega), if_pos (by omega)]
        exact ih _ ev

theorem logErase_mem (k : Int) (l : List (Int × Event)) (p : Int × Event)
    (h : p ∈ logErase k l) : p ∈ l ∧ p.1 ≠ k := by
  unfold logErase at h
  have h2 := List.mem_filter.mp h
  exact ⟨h2.1, of_decide_eq_true h2.2⟩

theorem logUpdate_mem (k : Int) (e : Event) (l : List (Int × Event)) (p : Int × Event)
    (h : p ∈ logUpdate k e l) : p = (k, e) ∨ p ∈ l := by
  unfold logUpdate at h
  rcases List.mem_cons.mp h with h | h
  · exact Or.inl h
  · exact Or.inr (logErase_mem k l p h).1

theorem drain_inv1 (flush : Bool) (todo : List Op) : ∀ (s : SState) (ev : Event),
    0 ≤ s.ver → (∀ p ∈ s.log, p.1 ≤ s.ver) → ev.Seqn ≤ s.ver →
    0 ≤ (drainLoop flush todo s ev).1.ver ∧
    (∀ p ∈ (drainLoop flush todo s ev).1.log, p.1 ≤ (drainLoop flush todo s ev).1.ver) ∧
    (drainLoop flush todo s ev).2.Seqn ≤ (drainLoop flush todo s ev).1.ver := by
  induction todo with
  | nil => intro s ev h0 hl he; exact ⟨h0, hl, he⟩
  | cons t rest ih =>
    intro s ev h0 hl he
    cases flush
    · rw [drainLoop_false_cons]
      by_cases hb : s.ver + 1 < t.Seqn
      · rw [if_pos hb]
        exact ⟨h0, hl, he⟩
      · rw [if_neg hb]
        by_cases hd : t.Seqn < s.ver + 1
        · rw [if_pos hd]
          exact ih s ev h0 hl he
        · rw [if_neg hd]
          have he2 := apply_Seqn s.root t.Seqn t.Mut
          refine ih _ _ ?_ ?_ ?_
          · show (0 : Int) ≤ (Node.apply s.root t.Seqn t.Mut).2.Seqn
            omega
          · intro p hp
            show p.1 ≤ (Node.apply s.root t.Seqn t.Mut).2.Seqn
            rcases logUpdate_mem _ _ _ p hp with hrfl | hp2
            · rw [hrfl]
            · have := hl p hp2
              omega
          · exact le_refl _
    · rw [drainLoop_true_cons]
      by_cases hv : s.ver < t.Seqn
      · have hv1 : (if decide (s.ver < t.Seqn) then t.Seqn - 1 else s.ver) = t.Seqn - 1 := by
          rw [decide_eq_true hv]
          exact if_pos rfl
        rw [hv1, if_neg (by omega), if_neg (by omega)]
        have he2 := apply_Seqn s.root t.Seqn t.Mut
        refine ih _ _ ?_ ?_ ?_
        · show (0 : Int) ≤ (Node.apply s.root t.Seqn t.Mut).2.Seqn
          omega
        · intro p hp
          show p.1 ≤ (Node.apply s.root t.Seqn t.Mut).2.Seqn
          have := hl p hp
          omega
        · exact le_refl _
      · have hv1 : (if decide (s.ver < t.Seqn) then t.Seqn - 1 else s.ver) = s.ver := by
          rw [decide_eq_false hv]
          exact if_neg Bool.false_ne_true
        rw [hv1, if_neg (by omega), if_pos (by omega)]
        exact ih _ ev h0 hl he

theorem drain_inv2 (todo : List Op) : ∀ (s : SState) (ev : Event),
    (∀ p ∈ s.log, s.head ≤ p.1) → s.head ≤ s.ver + 1 →
    (∀ p ∈ (drainLoop false todo s ev).1.log, (drainLoop false todo s ev).1.head ≤ p.1) ∧
    (drainLoop false todo s ev).1.head ≤ (drainLoop false todo s ev).1.ver + 1 := by
  induction todo with
  | nil => intro s ev hl hh; exact ⟨hl, hh⟩
  | cons t rest ih =>
    intro s ev hl hh
    rw [drainLoop_false_cons]
    by_cases hb : s.ver + 1 < t.Seqn
    · rw [if_pos hb]
      exact ⟨hl, hh⟩
    · rw [if_neg hb]
      by_cases hd : t.Seqn < s.ver + 1
      · rw [if_pos hd]
        exact ih s ev hl hh
      · rw [if_neg hd]
        have he2 := apply_Seqn s.root t.Seqn t.Mut
        refine ih _ _ ?_ ?_
        · intro p hp
          show s.head ≤ p.1
          rcases logUpdate_mem _ _ _ p hp with hrfl | hp2
          · rw [hrfl]
            show s.head ≤ (Node.apply s.root t.Seqn t.Mut).2.Seqn
            omega
          · exact hl p hp2
        · show s.head ≤ (Node.apply s.root t.Seqn t.Mut).2.Seqn + 1
          omega

theorem cleanLoop_head (f : Nat) : ∀ (h : Int) (l : List (Int × Event)),
    (cleanLoop f h l).1 = h + f := by
  induction f with
  | zero => intro h l; simp [cleanLoop]
  | succ f ih =>
    intro h l
    rw [cleanLoop, ih]
    omega

theorem cleanLoop_mem (f : Nat) : ∀ (h : Int) (l : List (Int × Event)) (p : Int × Event),
    p ∈ (cleanLoop f h l).2 → p ∈ l ∧ ¬(h ≤ p.1 ∧ p.1 < h + f) := by
  induction f with
  | zero =>
    intro h l p hp
    refine ⟨hp, ?_⟩
    omega
  | succ f ih =>
    intro h l p hp
    rw [cleanLoop] at hp
    obtain ⟨hp2, hrange⟩ := ih (h + 1) (logErase h l) p hp
    obtain ⟨hp3, hne⟩ := logErase_mem h l p hp2
    refine ⟨hp3, ?_⟩
    omega

theorem afterSelect_inv1 (flush : Bool) (s1 : SState) (h : Inv1 s1) :
    Inv1 (afterSelect flush s1) := by
  obtain ⟨h0, hl⟩ := h
  have hd := drain_inv1 flush s1.todo { s1 with todo := [] } Event.zero h0 hl h0
  cases flush
  · exact ⟨hd.1, hd.2.1⟩
  · constructor
    · exact hd.1
    · intro p hp
      rcases logUpdate_mem _ _ _ p hp with hrfl | hp2
      · rw [hrfl]
        exact hd.2.2
      · exact hd.2.1 p hp2

theorem afterSelect_inv2 (s1 : SState) (h2 : Inv2 s1) :
    Inv2 (afterSelect false s1) := by
  obtain ⟨hh, hl2⟩ := h2
  have hd := drain_inv2 s1.todo { s1 with todo := [] } Event.zero hl2 hh
  exact ⟨hd.2, hd.1⟩

theorem inv1_of_fields (s s2 : SState) (hv : s2.ver = s.ver) (hlg : s2.log = s.log)
    (h : Inv1 s) : Inv1 s2 := by
  rw [Inv1, hv, hlg]
  exact h

theorem inv2_of_fields (s s2 : SState) (hv : s2.ver = s.ver) (hh : s2.head = s.head)
    (hlg : s2.log = s.log) (h : Inv2 s) : Inv2 s2 := by
  rw [Inv2, hv, hh, hlg]
  exact h

theorem step_inv1 (s : SState) (r : Req) (h : Inv1 s) : Inv1 (step s r) := by
  obtain ⟨h0, hl⟩ := h
  cases r with
  | op o =>
    refine afterSelect_inv1 false _ (inv1_of_fields s _ ?_ ?_ ⟨h0, hl⟩)
    all_goals
      dsimp only
      by_cases hc : o.Seqn > s.ver
      · rw [if_pos hc]
      · rw [if_neg hc]
  | watch w =>
    refine afterSelect_inv1 false _ (inv1_of_fields s _ ?_ ?_ ⟨h0, hl⟩)
    all_goals
      dsimp only
      unfold registerWatch
      by_cases hc : w.from_ < s.head
      · rw [if_pos hc]
      · rw [if_neg hc]
  | clean k =>
    refine afterSelect_inv1 false _ ?_
    refine ⟨h0, ?_⟩
    intro p hp
    exact hl p (cleanLoop_mem _ _ _ p hp).1
  | seqnQ => exact afterSelect_inv1 false _ ⟨h0, hl⟩
  | watchQ => exact afterSelect_inv1 false _ ⟨h0, hl⟩
  | deliver =>
    refine afterSelect_inv1 false _ (inv1_of_fields s _ ?_ ?_ ⟨h0, hl⟩)
    all_goals
      dsimp only
      unfold deliverStep
      split <;> rfl
  | flushSig => exact afterSelect_inv1 true _ ⟨h0, hl⟩

theorem step_inv2_good (s : SState) (r : Req) (hg : goodReq s r = true)
    (_h1 : Inv1 s) (h2 : Inv2 s) : Inv2 (step s r) := by
  obtain ⟨hh, hl2⟩ := h2
  cases r with
  | op o =>
    refine afterSelect_inv2 _ (inv2_of_fields s _ ?_ ?_ ?_ ⟨hh, hl2⟩)
    all_goals
      dsimp only
      by_cases hc : o.Seqn > s.ver
      · rw [if_pos hc]
      · rw [if_neg hc]
  | watch w =>
    refine afterSelect_inv2 _ (inv2_of_fields s _ ?_ ?_ ?_ ⟨hh, hl2⟩)
    all_goals
      dsimp only
      unfold registerWatch
      by_cases hc : w.from_ < s.head
      · rw [if_pos hc]
      · rw [if_neg hc]
  | clean k =>
    have hk : k ≤ s.ver := of_decide_eq_true hg
    refine afterSelect_inv2 _ ?_
    have hhead := cleanLoop_head (k + 1 - s.head).toNat s.head s.log
    constructor
    · show (cleanLoop (k + 1 - s.head).toNat s.head s.log).1 ≤ s.ver + 1
      omega
    · intro p hp
      show (cleanLoop (k + 1 - s.head).toNat s.head s.log).1 ≤ p.1
      obtain ⟨hp2, hrange⟩ := cleanLoop_mem (k + 1 - s.head).toNat s.head s.log p hp
      have := hl2 p hp2
      omega
  | seqnQ => exact afterSelect_inv2 _ ⟨hh, hl2⟩
  | watchQ => exact afterSelect_inv2 _ ⟨hh, hl2⟩
  | deliver =>
    refine afterSelect_inv2 _ (inv2_of_fields s _ ?_ ?_ ?_ ⟨hh, hl2⟩)
    all_goals
      dsimp only
      unfold deliverStep
      split <;> rfl
  | flushSig => simp [goodReq] at hg

theorem foldl_inv1 (rs : List Req) : ∀ s : SState, Inv1 s →
    Inv1 (List.foldl step s rs) := by
  induction rs with
  | nil => intro s h; exact h
  | cons r rs ih => intro s h; exact ih (step s r) (step_inv1 s r h)

theorem foldl_inv2 (rs : List Req) : ∀ s : SState, Inv1 s → Inv2 s →
    goodFrom s rs = true → Inv2 (List.foldl step s rs) := by
  induction rs with
  | nil => intro s _ h2 _; exact h2
  | cons r rs ih =>
    intro s h1 h2 hg
    simp only [goodFrom, Bool.and_eq_true] at hg
    exact ih (step s r) (step_inv1 s r h1) (step_inv2_good s r hg.1 h1 h2) hg.2

theorem inv1_init : Inv1 initS := by
  constructor
  · exact le_refl 0
  · intro p hp
    simp [initS] at hp

theorem inv2_init : Inv2 initS := by
  constructor
  · show (0 : Int) ≤ 0 + 1
    omega
  · intro p hp
    simp [initS] at hp

/-- C4 counterexample — the claim says a mutation whose rev prefix is not
a signed decimal int64 yields the `BadMutation` error, but on `"x:/a"`
`decode` returns `strconv.Atoi64`'s own error, which is not
`ErrBadMutation`. -/
theorem C4_decode_error_cex :
    decode "x:/a" = .error (.numErr "x") ∧
    StoreError.numErr "x" ≠ StoreError.badMutation :=
  ⟨rfl, by decide⟩

/-- C4 amended — a mutation with no `":"` decodes to `BadMutation`; one
whose rev prefix does not parse as an int64 decodes to the integer
parser's error (not `BadMutation`); a parseable mutation whose path part
(everything between the first `":"` and the first `"="`, or the rest when
there is no `"="`) fails validation decodes to `BadPath` naming that
part. -/
theorem C4_decode_errors_amended :
    (∀ m : String, ':' ∉ m.data → decode m = .error .badMutation) ∧
    (∀ a rest : String, ':' ∉ a.data → atoi64 a.data = .error () →
      decode (a ++ ":" ++ rest) = .error (.numErr a)) ∧
    (∀ (a p : String) (r : Int), ':' ∉ a.data → atoi64 a.data = .ok r →
      '=' ∉ p.data → pathOk p = false →
      decode (a ++ ":" ++ p) = .error (.badPath p)) ∧
    (∀ (a p b : String) (r : Int), ':' ∉ a.data → atoi64 a.data = .ok r →
      '=' ∉ p.data → pathOk p = false →
      decode (a ++ ":" ++ p ++ "=" ++ b) = .error (.badPath p)) := by
  refine ⟨?_, ?_, ?_, ?_⟩
  · intro m h
    simp only [decode, splitFirst_not_mem ':' m.data h]
  · intro a rest hna herr
    simp only [decode, appendColon_data,
      splitFirst_append ':' a.data rest.data hna, herr, strMk_data]
  · intro a p r hna hok hne hp
    have hp2 : pathOkL p.data = false := hp
    simp only [decode, appendColon_data,
      splitFirst_append ':' a.data p.data hna, hok,
      splitFirst_not_mem '=' p.data hne, hp2, if_false, strMk_data,
      Bool.false_eq_true]
  · intro a p b r hna hok hne hp
    have hp2 : pathOkL p.data = false := hp
    have hd : (a ++ ":" ++ p ++ "=" ++ b).data
        = a.data ++ ':' :: (p.data ++ '=' :: b.data) := by
      simp [String.data_append, colon_data, eqsign_data]
    simp only [decode, hd,
      splitFirst_append ':' a.data (p.data ++ '=' :: b.data) hna, hok,
      splitFirst_append '=' p.data b.data hne, hp2, if_false, strMk_data,
      Bool.false_eq_true]

/-- Witness for C4's amended statement on `"abc"`, `"yy:/a"`, `"1:bad"`
and `"1:bad=z"`. -/
theorem C4_decode_errors_amended_witness :
    decode "abc" = .error .badMutation ∧
    decode ("yy" ++ ":" ++ "/a") = .error (.numErr "yy") ∧
    decode ("1" ++ ":" ++ "bad") = .error (.badPath "bad") ∧
    decode ("1" ++ ":" ++ "bad" ++ "=" ++ "z") = .error (.badPath "bad") :=
  ⟨C4_decode_errors_amended.1 "abc" (by decide),
   C4_decode_errors_amended.2.1 "yy" "/a" (by decide) rfl,
   C4_decode_errors_amended.2.2.1 "1" "bad" 1 (by decide) rfl (by decide) rfl,
   C4_decode_errors_amended.2.2.2 "1" "bad" "z" 1 (by decide) rfl (by decide) rfl⟩

/-- C9 — for every valid path, every body (possibly empty, possibly
containing `"="`) and every int64 rev, `EncodeSet` and `EncodeDel`
succeed with no error and `decode` inverts them exactly:
`decode(EncodeSet(path, body, rev)) = (path, body, rev, keep=true)` and
`decode(EncodeDel(path, rev)) = (path, "", rev, keep=false)`. -/
theorem C9_encode_decode_roundtrip (path body : String) (rev : Int)
    (hp : pathOk path = true) (hlo : -(2 ^ 63) ≤ rev) (hhi : rev < 2 ^ 63) :
    EncodeSet path body rev = (itoa64S rev ++ ":" ++ path ++ "=" ++ body, none) ∧
    decode (EncodeSet path body rev).1 = .ok (path, body, rev, true) ∧
    EncodeDel path rev = (itoa64S rev ++ ":" ++ path, none) ∧
    decode (EncodeDel path rev).1 = .ok (path, "", rev, false) := by
  have hcp : checkPath path = none := by
    unfold checkPath
    rw [if_pos hp]
  refine ⟨?_, ?_, ?_, ?_⟩
  · simp only [EncodeSet, hcp]
  · simp only [EncodeSet, hcp]
    exact decode_encodeSet path body rev hp hlo hhi
  · simp only [EncodeDel, hcp]
  · simp only [EncodeDel, hcp]
    exact decode_encodeDel path rev hp hlo hhi

/-- Witness for C9 at path `"/a"`, body `"x=y"` (containing `"="`),
rev `-3`. -/
theorem C9_encode_decode_roundtrip_witness :
    pathOk "/a" = true ∧
    decode (EncodeSet "/a" "x=y" (-3)).1 = .ok ("/a", "x=y", -3, true) ∧
    decode (EncodeDel "/a" (-3)).1 = .ok ("/a", "", -3, false) :=
  ⟨rfl,
   (C9_encode_decode_roundtrip "/a" "x=y" (-3) rfl (by norm_num) (by norm_num)).2.1,
   (C9_encode_decode_roundtrip "/a" "x=y" (-3) rfl (by norm_num) (by norm_num)).2.2.2⟩

/-- C3 counterexample — the invariant fails as stated: `Clean(5)` on the
fresh store advances `head` to 6 (the loop `for ; st.head <= seqn;
st.head++` does not stop at the version), and the subsequently applied op
with seqn 1 is logged below `head`, so a retained entry with
`seqn < head` is reachable. -/
theorem C3_log_window_cex :
    ¬ (∀ (rs : List Req) (n : Int) (e : Event), (n, e) ∈ (runTrace rs).log →
        (runTrace rs).head ≤ n ∧ n ≤ (runTrace rs).ver) := by
  intro hcl
  have hmem : ((1 : Int),
      ({ Seqn := 1, Path := "/a", Body := "x", Rev := 1, Mut := "0:/a=x",
         Err := none, Getter := Node.dir [("a", Node.file "x" 1)] } : Event)) ∈
      (runTrace [.clean 5, .op ⟨1, "0:/a=x"⟩]).log :=
    List.mem_singleton.mpr rfl
  have h := hcl [.clean 5, .op ⟨1, "0:/a=x"⟩] 1 _ hmem
  have hh : (runTrace [.clean 5, .op ⟨1, "0:/a=x"⟩]).head = 6 := rfl
  rw [hh] at h
  omega

/-- C3 amended — in every reachable state, every retained log entry sits
at a sequence number at most the version; and along traces whose `Clean`
requests stay at or below the version current when they are served and
which contain no flush, every retained entry also sits at or above
`head`.  (A `Clean(k)` with `k` beyond the version, or a flush — whose
epilogue sets `head = ver + 1` while logging the final event at `ver` —
can leave the single flush entry below `head`, as the counterexample
shows.) -/
theorem C3_log_window_amended (rs : List Req) (n : Int) (e : Event)
    (hmem : (n, e) ∈ (runTrace rs).log) :
    n ≤ (runTrace rs).ver ∧
    (GoodTrace rs = true → (runTrace rs).head ≤ n) := by
  constructor
  · exact (foldl_inv1 rs initS inv1_init).2 (n, e) hmem
  · intro hg
    exact (foldl_inv2 rs initS inv1_init inv2_init hg).2 (n, e) hmem

/-- Witness for C3's amended statement on the good trace
`[op {1, "0:/a=x"}, Clean 0]`. -/
theorem C3_log_window_amended_witness :
    GoodTrace [.op ⟨1, "0:/a=x"⟩, .clean 0] = true ∧
    1 ≤ (runTrace [.op ⟨1, "0:/a=x"⟩, .clean 0]).ver ∧
    (runTrace [.op ⟨1, "0:/a=x"⟩, .clean 0]).head ≤ 1 := by
  have hmem : ((1 : Int),
      ({ Seqn := 1, Path := "/a", Body := "x", Rev := 1, Mut := "0:/a=x",
         Err := none, Getter := Node.dir [("a", Node.file "x" 1)] } : Event)) ∈
      (runTrace [.op ⟨1, "0:/a=x"⟩, .clean 0]).log :=
    List.mem_singleton.mpr rfl
  have h := C3_log_window_amended [.op ⟨1, "0:/a=x"⟩, .clean 0] 1 _ hmem
  exact ⟨rfl, h.1, h.2 rfl⟩

theorem sortedOps_tail (t : Op) (rest : List Op) (h : sortedOps (t :: rest) = true) :
    sortedOps rest = true := by
  cases rest with
  | nil => rfl
  | cons b r =>
    simp only [sortedOps, Bool.and_eq_true] at h
    exact h.2

theorem sortedOps_head_le (rest : List Op) : ∀ t : Op, sortedOps (t :: rest) = true →
    ∀ o ∈ rest, t.Seqn ≤ o.Seqn := by
  induction rest with
  | nil => intro t _ o ho; simp at ho
  | cons b r ih =>
    intro t h o ho
    simp only [sortedOps, Bool.and_eq_true, decide_eq_true_eq] at h
    rcases List.mem_cons.mp ho with hrfl | ho
    · rw [hrfl]
      exact h.1
    · exact le_trans h.1 (ih b h.2 o ho)

theorem intRange_cons (start : Int) (k : Nat) :
    intRange start (k + 1) = start :: intRange (start + 1) k := rfl

theorem intRange_mem (k : Nat) : ∀ (start x : Int), x ∈ intRange start k →
    start ≤ x ∧ x < start + k := by
  induction k with
  | zero => intro start x hx; simp [intRange] at hx
  | succ k ih =>
    intro start x hx
    rw [intRange_cons] at hx
    rcases List.mem_cons.mp hx with hrfl | hx
    · omega
    · have := ih (start + 1) x hx
      omega

theorem intRange_nodup (k : Nat) : ∀ start : Int, (intRange start k).Nodup := by
  induction k with
  | zero => intro start; simp [intRange]
  | succ k ih =>
    intro start
    rw [intRange_cons, List.nodup_cons]
    refine ⟨fun hmem => ?_, ih (start + 1)⟩
    have := intRange_mem k (start + 1) start hmem
    omega

theorem drain_false_applied (todo : List Op) : ∀ (s : SState) (ev : Event),
    sortedOps todo = true →
    ((drainLoop false todo s ev).1.applied.map (fun e => e.Seqn) =
       s.applied.map (fun e => e.Seqn) ++
         intRange (s.ver + 1) ((drainLoop false todo s ev).1.ver - s.ver).toNat) ∧
    (∀ o ∈ (drainLoop false todo s ev).1.todo,
       (drainLoop false todo s ev).1.ver + 1 < o.Seqn) := by
  induction todo with
  | nil =>
    intro s ev _
    constructor
    · have h0 : ((s.ver : Int) - s.ver).toNat = 0 := by omega
      show s.applied.map (fun e => e.Seqn) =
        s.applied.map (fun e => e.Seqn) ++ intRange (s.ver + 1) (s.ver - s.ver).toNat
      rw [h0, show intRange (s.ver + 1) 0 = [] from rfl, List.append_nil]
    · intro o ho
      exact absurd (ho : o ∈ ([] : List Op)) (List.not_mem_nil o)
  | cons t rest ih =>
    intro s ev hs
    rw [drainLoop_false_cons]
    by_cases hb : s.ver + 1 < t.Seqn
    · rw [if_pos hb]
      constructor
      · have h0 : ((s.ver : Int) - s.ver).toNat = 0 := by omega
        show s.applied.map (fun e => e.Seqn) =
          s.applied.map (fun e => e.Seqn) ++ intRange (s.ver + 1) (s.ver - s.ver).toNat
        rw [h0, show intRange (s.ver + 1) 0 = [] from rfl, List.append_nil]
      · intro o ho
        show s.ver + 1 < o.Seqn
        rcases List.mem_cons.mp ho with hrfl | ho
        · rw [hrfl]
          exact hb
        · exact lt_of_lt_of_le hb (sortedOps_head_le rest t hs o ho)
    · rw [if_neg hb]
      by_cases hd : t.Seqn < s.ver + 1
      · rw [if_pos hd]
        exact ih s ev (sortedOps_tail t rest hs)
      · rw [if_neg hd]
        have he2 := apply_Seqn s.root t.Seqn t.Mut
        have hts : t.Seqn = s.ver + 1 := by omega
        have hih := ih
          { s with
            root := (Node.apply s.root t.Seqn t.Mut).1,
            ver := (Node.apply s.root t.Seqn t.Mut).2.Seqn,
            log := logUpdate (Node.apply s.root t.Seqn t.Mut).2.Seqn
              (Node.apply s.root t.Seqn t.Mut).2 s.log,
            watches := (notify s.notices (Node.apply s.root t.Seqn t.Mut).2 s.watches).1,
            notices := (notify s.notices (Node.apply s.root t.Seqn t.Mut).2 s.watches).2,
            applied := s.applied ++ [(Node.apply s.root t.Seqn t.Mut).2] }
          (Node.apply s.root t.Seqn t.Mut).2
          (sortedOps_tail t rest hs)
        have hmono := drain_ver_mono false rest
          { s with
            root := (Node.apply s.root t.Seqn t.Mut).1,
            ver := (Node.apply s.root t.Seqn t.Mut).2.Seqn,
            log := logUpdate (Node.apply s.root t.Seqn t.Mut).2.Seqn
              (Node.apply s.root t.Seqn t.Mut).2 s.log,
            watches := (notify s.notices (Node.apply s.root t.Seqn t.Mut).2 s.watches).1,
            notices := (notify s.notices (Node.apply s.root t.Seqn t.Mut).2 s.watches).2,
            applied := s.applied ++ [(Node.apply s.root t.Seqn t.Mut).2] }
          (Node.apply s.root t.Seqn t.Mut).2
        simp only at hih hmono
        refine ⟨?_, hih.2⟩
        rw [hih.1]
        rw [List.map_append]
        have hng : (((drainLoop false rest
            { s with
              root := (Node.apply s.root t.Seqn t.Mut).1,
              ver := (Node.apply s.root t.Seqn t.Mut).2.Seqn,
              log := logUpdate (Node.apply s.root t.Seqn t.Mut).2.Seqn
                (Node.apply s.root t.Seqn t.Mut).2 s.log,
              watches := (notify s.notices (Node.apply s.root t.Seqn t.Mut).2 s.watches).1,
              notices := (notify s.notices (Node.apply s.root t.Seqn t.Mut).2 s.watches).2,
              applied := s.applied ++ [(Node.apply s.root t.Seqn t.Mut).2] }
            (Node.apply s.root t.Seqn t.Mut).2).1.ver : Int) - s.ver).toNat =
            ((drainLoop false rest
              { s with
                root := (Node.apply s.root t.Seqn t.Mut).1,
                ver := (Node.apply s.root t.Seqn t.Mut).2.Seqn,
                log := logUpdate (Node.apply s.root t.Seqn t.Mut).2.Seqn
                  (Node.apply s.root t.Seqn t.Mut).2 s.log,
                watches := (notify s.notices (Node.apply s.root t.Seqn t.Mut).2 s.watches).1,
                notices := (notify s.notices (Node.apply s.root t.Seqn t.Mut).2 s.watches).2,
                applied := s.applied ++ [(Node.apply s.root t.Seqn t.Mut).2] }
              (Node.apply s.root t.Seqn t.Mut).2).1.ver -
              (Node.apply s.root t.Seqn t.Mut).2.Seqn).toNat + 1 := by
          omega
        rw [hng, intRange_cons]
        have hE : (Node.apply s.root t.Seqn t.Mut).2.Seqn = s.ver + 1 := by omega
        rw [hE]
        simp [List.append_assoc, hE]

theorem drain_true_todo (todo : List Op) : ∀ (s : SState) (ev : Event),
    (drainLoop true todo s ev).1.todo = [] := by
  induction todo with
  | nil => intro s ev; rfl
  | cons t rest ih =>
    intro s ev
    rw [drainLoop_true_cons]
    by_cases hv : s.ver < t.Seqn
    · have hv1 : (if decide (s.ver < t.Seqn) then t.Seqn - 1 else s.ver) = t.Seqn - 1 := by
        rw [decide_eq_true hv]
        exact if_pos rfl
      rw [hv1, if_neg (by omega), if_neg (by omega)]
      exact ih _ _
    · have hv1 : (if decide (s.ver < t.Seqn) then t.Seqn - 1 else s.ver) = s.ver := by
        rw [decide_eq_false hv]
        exact if_neg Bool.false_ne_true
      rw [hv1, if_neg (by omega), if_pos (by omega)]
      exact ih _ ev

theorem afterSelect_false_head (s1 : SState) :
    (afterSelect false s1).head = s1.head :=
  drain_head false s1.todo { s1 with todo := [] } Event.zero

theorem step_head_noTrim (s : SState) (r : Req) (h : noTrimReq r = true) :
    (step s r).head = s.head := by
  cases r with
  | op o =>
    refine Eq.trans (afterSelect_false_head _) ?_
    dsimp only
    by_cases hc : o.Seqn > s.ver
    · rw [if_pos hc]
    · rw [if_neg hc]
  | watch w =>
    refine Eq.trans (afterSelect_false_head _) ?_
    dsimp only
    unfold registerWatch
    by_cases hc : w.from_ < s.head
    · rw [if_pos hc]
    · rw [if_neg hc]
  | clean k => simp [noTrimReq] at h
  | seqnQ => exact afterSelect_false_head _
  | watchQ => exact afterSelect_false_head _
  | deliver =>
    refine Eq.trans (afterSelect_false_head _) ?_
    dsimp only
    unfold deliverStep
    split <;> rfl
  | flushSig => simp [noTrimReq] at h

theorem trace_head_noTrim (rs : List Req) : ∀ s : SState,
    (∀ r ∈ rs, noTrimReq r = true) → (List.foldl step s rs).head = s.head := by
  induction rs with
  | nil => intro s _; rfl
  | cons r rs ih =>
    intro s h
    rw [List.foldl_cons, ih (step s r) (fun r2 hr2 => h r2 (List.mem_cons_of_mem r hr2)),
      step_head_noTrim s r (h r (List.mem_cons_self r rs))]

/-- C5 — sequence numbers are applied at most once: over a sorted pending
heap, a non-flush drain applies exactly the consecutive run of seqns
`ver+1, ver+2, ...` (each therefore at most once, witnessed by the
`Nodup`); any op left in the heap is strictly beyond the new
`version + 1` (the gap stops the drain); an op received with
`seqn ≤ version` leaves the iteration identical to a no-op query
iteration (it is not enqueued); and a flushing drain consumes the whole
heap instead of stopping at a gap. -/
theorem C5_apply_at_most_once (todo : List Op) (s : SState) (ev : Event)
    (hs : sortedOps todo = true) (h0 : s.applied = []) :
    ((drainLoop false todo s ev).1.applied.map (fun e => e.Seqn) =
       intRange (s.ver + 1) ((drainLoop false todo s ev).1.ver - s.ver).toNat) ∧
    ((drainLoop false todo s ev).1.applied.map (fun e => e.Seqn)).Nodup ∧
    (∀ o ∈ (drainLoop false todo s ev).1.todo,
       (drainLoop false todo s ev).1.ver + 1 < o.Seqn) ∧
    (∀ (s2 : SState) (o : Op), o.Seqn ≤ s2.ver → step s2 (.op o) = step s2 .seqnQ) ∧
    (∀ (todo2 : List Op) (s2 : SState) (ev2 : Event),
       (drainLoop true todo2 s2 ev2).1.todo = []) := by
  have hda := drain_false_applied todo s ev hs
  refine ⟨?_, ?_, hda.2, ?_, fun todo2 s2 ev2 => drain_true_todo todo2 s2 ev2⟩
  · rw [hda.1, h0]
    simp
  · rw [hda.1, h0]
    simp only [List.map_nil, List.nil_append]
    exact intRange_nodup _ _
  · intro s2 o hle
    unfold step
    dsimp only
    rw [if_neg (by omega : ¬ o.Seqn > s2.ver)]
    rfl

/-- Witness for C5 on the sorted pending list `{1, 1, 3}` over the fresh
store: the drain applies seqn 1 exactly once (duplicate discarded) and
stops at the gap before 3. -/
theorem C5_apply_at_most_once_witness :
    sortedOps [⟨1, "0:/a=x"⟩, ⟨1, "0:/a=y"⟩, ⟨3, "0:/c=z"⟩] = true ∧
    (drainLoop false [⟨1, "0:/a=x"⟩, ⟨1, "0:/a=y"⟩, ⟨3, "0:/c=z"⟩] initS
        Event.zero).1.applied.map (fun e => e.Seqn) =
      intRange (initS.ver + 1)
        ((drainLoop false [⟨1, "0:/a=x"⟩, ⟨1, "0:/a=y"⟩, ⟨3, "0:/c=z"⟩] initS
            Event.zero).1.ver - initS.ver).toNat ∧
    ((drainLoop false [⟨1, "0:/a=x"⟩, ⟨1, "0:/a=y"⟩, ⟨3, "0:/c=z"⟩] initS
        Event.zero).1.applied.map (fun e => e.Seqn)).Nodup :=
  ⟨rfl,
   (C5_apply_at_most_once [⟨1, "0:/a=x"⟩, ⟨1, "0:/a=y"⟩, ⟨3, "0:/c=z"⟩] initS
     Event.zero rfl rfl).1,
   (C5_apply_at_most_once [⟨1, "0:/a=x"⟩, ⟨1, "0:/a=y"⟩, ⟨3, "0:/c=z"⟩] initS
     Event.zero rfl rfl).2.1⟩

/-- C7 — trim safety: on a store whose only trim is one `Clean(k)`
(any prefix of non-trim requests before it), the head becomes `k + 1`, a
`watchOn` with `1 ≤ from ≤ k` fails with `ErrTooLate` and the
dispatcher's registration for that watch is a no-op (the iteration equals
a no-op query iteration, so the watch never enters the live set and no
notice is ever produced for it), while `from > k` registers
successfully with no error. -/
theorem C7_clean_toolate (rs : List Req) (k fr to2 : Int) (g : Glob)
    (hrs : ∀ r ∈ rs, noTrimReq r = true) (hk : 0 ≤ k) :
    (step (runTrace rs) (.clean k)).head = k + 1 ∧
    (1 ≤ fr → fr ≤ k →
      watchOn g fr to2 (step (runTrace rs) (.clean k)).head = (.error .tooLate, true) ∧
      step (step (runTrace rs) (.clean k)) (.watch ⟨g, fr, to2, false⟩) =
        step (step (runTrace rs) (.clean k)) .seqnQ) ∧
    (k < fr →
      watchOn g fr to2 (step (runTrace rs) (.clean k)).head =
        (.ok ⟨g, fr, to2, false⟩, true)) := by
  have hh0 : (runTrace rs).head = 0 := trace_head_noTrim rs initS hrs
  have hcl := cleanLoop_head (k + 1 - (runTrace rs).head).toNat (runTrace rs).head
    (runTrace rs).log
  have hh1 : (step (runTrace rs) (.clean k)).head = k + 1 := by
    refine Eq.trans (afterSelect_false_head _) ?_
    show (cleanLoop (k + 1 - (runTrace rs).head).toNat (runTrace rs).head
      (runTrace rs).log).1 = k + 1
    rw [hcl, hh0]
    omega
  refine ⟨hh1, ?_, ?_⟩
  · intro h1 h2
    constructor
    · rw [hh1]
      unfold watchOn
      rw [if_neg (by omega), if_pos (by omega)]
    · have hlt : fr < (step (runTrace rs) (.clean k)).head := by
        rw [hh1]
        omega
      generalize hS : step (runTrace rs) (.clean k) = S at hlt ⊢
      unfold step
      dsimp only
      unfold registerWatch
      rw [if_pos hlt]
      rfl
  · intro h2
    rw [hh1]
    unfold watchOn
    rw [if_neg (by omega), if_neg (by omega)]

/-- Witness for C7 with `Clean(3)` on the fresh store: `from = 2` is
rejected and ignored by the dispatcher, `from = 5` succeeds. -/
theorem C7_clean_toolate_witness :
    (step (runTrace []) (.clean 3)).head = 4 ∧
    watchOn Any 2 9 (step (runTrace []) (.clean 3)).head = (.error .tooLate, true) ∧
    step (step (runTrace []) (.clean 3)) (.watch ⟨Any, 2, 9, false⟩) =
      step (step (runTrace []) (.clean 3)) .seqnQ ∧
    watchOn Any 5 9 (step (runTrace []) (.clean 3)).head = (.ok ⟨Any, 5, 9, false⟩, true) := by
  have h := C7_clean_toolate [] 3 2 9 Any (fun r hr => absurd hr (List.not_mem_nil r))
    (by norm_num)
  have h5 := C7_clean_toolate [] 3 5 9 Any (fun r hr => absurd hr (List.not_mem_nil r))
    (by norm_num)
  exact ⟨h.1, (h.2.1 (by norm_num) (by norm_num)).1, (h.2.1 (by norm_num) (by norm_num)).2,
    h5.2.2 (by norm_num)⟩

end Doozer
